import Mathlib

/-!
Verification of the paragraph-ingestion core of the insight_streamlit
repository: the paragraph extractor, the greedy chunk merger and the
author classifier of `ingest.py`, and the library-URL resolver of
`app.py`, embedded as pure Lean functions over lists and strings.

Python string primitives (`split`, `strip`, `lower`, `replace`,
`startswith`, `in`) are modelled as structural functions on the
character list of a `String`, so that every definition evaluates by
kernel reduction.
-/

/-- Split a character list at every character satisfying `p`, keeping the
(possibly empty) pieces between separators: the behaviour of the Python
method `str.split(sep)` for a single-character separator class. -/
def splitChars (p : Char → Bool) : List Char → List (List Char)
  | [] => [[]]
  | c :: rest =>
    match splitChars p rest with
    | [] => if p c then [[], []] else [[c]]
    | t :: ts => if p c then [] :: t :: ts else (c :: t) :: ts

/-- Whitespace-split token count of a string: `len(text.split())` in Python.
The argument-free Python `split` splits on whitespace runs and drops empty
tokens, which equals splitting at every whitespace character and filtering
out the empty pieces. -/
def wordCount (s : String) : Nat :=
  ((splitChars (fun c => c.isWhitespace) s.data).filter fun t => t ≠ []).length

/-- Python `str.strip()`: remove leading and trailing whitespace. -/
def pyStrip (s : String) : String :=
  ⟨((s.data.dropWhile fun c => c.isWhitespace).reverse.dropWhile
      fun c => c.isWhitespace).reverse⟩

/-- Python `str.lower()` (on the ASCII range relevant to the corpus
filenames). -/
def pyLower (s : String) : String :=
  ⟨s.data.map Char.toLower⟩

/-- Fuelled worker for `pyReplace`: scan left to right; at each position
where the pattern is a prefix, emit the replacement and resume after the
matched occurrence, exactly as Python `str.replace` does for a non-empty
pattern.  The fuel starts at the length of the scanned list and bounds the
recursion structurally. -/
def pyReplaceGo (pat repl : List Char) : Nat → List Char → List Char
  | _, [] => []
  | 0, s => s
  | fuel + 1, c :: rest =>
    if pat.isPrefixOf (c :: rest) then
      repl ++ pyReplaceGo pat repl fuel ((c :: rest).drop pat.length)
    else
      c :: pyReplaceGo pat repl fuel rest

/-- Python `s.replace(pat, repl)` for a non-empty pattern: replace every
non-overlapping occurrence, scanning left to right. -/
def pyReplace (s pat repl : String) : String :=
  ⟨pyReplaceGo pat.data repl.data s.data.length s.data⟩

/-- Python `s.startswith(pre)`. -/
def pyStartsWith (s pre : String) : Bool :=
  pre.data.isPrefixOf s.data

/-- Python `c in s` for a single character. -/
def pyContains (s : String) (c : Char) : Bool :=
  s.data.contains c

/-- One extracted non-empty paragraph together with its position in the
paragraph sequence of the document: the text and original_id records
built by the first loop of `extract_paragraphs_from_docx` in `ingest.py`. -/
structure RawParagraph where
  text : String
  original_id : Nat
deriving DecidableEq

/-- The first loop of `extract_paragraphs_from_docx` (`ingest.py` lines
122-128): enumerate the paragraph texts of the document, strip each one, and keep
the non-empty results paired with their enumeration index `i`. -/
def extractRaw (i : Nat) : List String → List RawParagraph
  | [] => []
  | t :: ts =>
    let text := pyStrip t
    if text = "" then extractRaw (i + 1) ts
    else { text := text, original_id := i } :: extractRaw (i + 1) ts

/-- The paragraph extractor: `extractRaw` started at index 0. -/
def extract_paragraphs (texts : List String) : List RawParagraph :=
  extractRaw 0 texts

/-- The lookup key of `get_author_from_filename` (`ingest.py` line 60):
`filename.lower().replace(".docx", "")`.  Python `str.replace` removes
every occurrence of the pattern, not only a trailing one. -/
def author_key (filename : String) : String :=
  pyReplace (pyLower filename) (".docx") ("")

/-- Works attributed to Bahaullah in `get_author_from_filename`. -/
def bahaullah_works : List String :=
  ["kitab-i-iqan", "hidden-words", "gleanings-writings-bahaullah",
   "kitab-i-aqdas-2", "epistle-son-wolf", "gems-divine-mysteries",
   "summons-lord-hosts", "tablets-bahaullah", "tabernacle-unity",
   "prayers-meditations"]

/-- Works attributed to Abdul-Baha in `get_author_from_filename`. -/
def abdul_baha_works : List String :=
  ["some-answered-questions", "paris-talks", "promulgation-universal-peace",
   "memorials-faithful", "selections-writings-abdul-baha",
   "secret-divine-civilization", "travelers-narrative",
   "will-testament-abdul-baha", "tablets-divine-plan", "tablet-auguste-forel"]

/-- Works attributed to the Bab in `get_author_from_filename`. -/
def bab_works : List String := ["selections-writings-bab"]

/-- Works attributed to Shoghi Effendi in `get_author_from_filename`. -/
def shoghi_works : List String :=
  ["advent-divine-justice", "god-passes-by", "promised-day-come",
   "world-order-bahaullah"]

/-- Works attributed to the Universal House of Justice. -/
def uhj_works : List String :=
  ["the-institution-of-the-counsellors", "turning-point", "muhj-1963-1986"]

/-- Compilation volumes in `get_author_from_filename`. -/
def compilation_works : List String := ["days-remembrance", "light-of-the-world"]

/-- Author classifier `get_author_from_filename` (`ingest.py` lines 58-112):
normalize the filename, look it up in the hardcoded category lists in
order, apply the dated-document rule, and fall back to the literal
`"Other"`. -/
def get_author_from_filename (filename : String) : String :=
  let filename_lower := author_key filename
  if filename_lower ∈ bahaullah_works then "Bah\xe1\x27u\x27ll\xe1h"
  else if filename_lower ∈ abdul_baha_works then "\x27Abdu\x27l-Bah\xe1"
  else if filename_lower ∈ bab_works then "The B\xe1b"
  else if filename_lower ∈ shoghi_works then "Shoghi Effendi"
  else if filename_lower ∈ uhj_works then "Universal House of Justice"
  else if filename_lower ∈ compilation_works then "Compilations"
  else if (pyStartsWith filename_lower ("19") || pyStartsWith filename_lower ("20"))
          && pyContains filename_lower '_' then "Universal House of Justice"
  else "Other"

/-- Base URL of the authoritative-texts library in
`get_bahai_library_url` (`app.py` line 99). -/
def base_url : String := "https://www.bahai.org/library/authoritative-texts"

/-- The lookup key of `get_bahai_library_url` (`app.py` line 102):
`source_file.replace(".docx", "").lower()`.  Note the order: the (case
sensitive) removal happens before lowercasing, unlike `author_key`. -/
def url_key (source_file : String) : String :=
  pyLower (pyReplace source_file (".docx") (""))

/-- The filename-to-URL table of `get_bahai_library_url`
(`app.py` lines 105-143). -/
def url_mappings : List (String × String) :=
  [("kitab-i-iqan", base_url ++ "/bahaullah/kitab-i-iqan/"),
   ("hidden-words", base_url ++ "/bahaullah/hidden-words/"),
   ("gleanings-writings-bahaullah", base_url ++ "/bahaullah/gleanings-writings-bahaullah/"),
   ("kitab-i-aqdas-2", base_url ++ "/bahaullah/kitab-i-aqdas/"),
   ("epistle-son-wolf", base_url ++ "/bahaullah/epistle-son-wolf/"),
   ("gems-divine-mysteries", base_url ++ "/bahaullah/gems-divine-mysteries/"),
   ("summons-lord-hosts", base_url ++ "/bahaullah/summons-lord-hosts/"),
   ("tablets-bahaullah", base_url ++ "/bahaullah/tablets-bahaullah/"),
   ("tabernacle-unity", base_url ++ "/bahaullah/tabernacle-unity/"),
   ("some-answered-questions", base_url ++ "/abdul-baha/some-answered-questions/"),
   ("paris-talks", base_url ++ "/abdul-baha/paris-talks/"),
   ("promulgation-universal-peace", base_url ++ "/abdul-baha/promulgation-universal-peace/"),
   ("memorials-faithful", base_url ++ "/abdul-baha/memorials-faithful/"),
   ("selections-writings-abdul-baha", base_url ++ "/abdul-baha/selections-writings-abdul-baha/"),
   ("secret-divine-civilization", base_url ++ "/abdul-baha/secret-divine-civilization/"),
   ("travelers-narrative", base_url ++ "/abdul-baha/travelers-narrative/"),
   ("will-testament-abdul-baha", base_url ++ "/abdul-baha/will-testament-abdul-baha/"),
   ("tablets-divine-plan", base_url ++ "/abdul-baha/tablets-divine-plan/"),
   ("tablet-auguste-forel", base_url ++ "/abdul-baha/tablet-auguste-forel/"),
   ("selections-writings-bab", base_url ++ "/the-bab/selections-writings-bab/"),
   ("advent-divine-justice", base_url ++ "/shoghi-effendi/advent-divine-justice/"),
   ("god-passes-by", base_url ++ "/shoghi-effendi/god-passes-by/"),
   ("promised-day-come", base_url ++ "/shoghi-effendi/promised-day-come/"),
   ("world-order-bahaullah", base_url ++ "/shoghi-effendi/world-order-bahaullah/"),
   ("prayers-meditations", base_url ++ "/bahaullah/prayers-meditations/"),
   ("days-remembrance", base_url ++ "/compilations/days-remembrance/"),
   ("light-of-the-world", base_url ++ "/compilations/light-of-the-world/"),
   ("turning-point", base_url ++ "/compilations/turning-point/")]

/-- URL resolver `get_bahai_library_url` (`app.py` lines 97-146): normalize
the filename, look the key up in the fixed table, and fall back to the
generic library root. -/
def get_bahai_library_url (source_file : String) : String :=
  match url_mappings.lookup (url_key source_file) with
  | some url => url
  | none => "https://www.bahai.org/library/"

/-- Decimal digit characters of `n`, most significant first: the characters
of the Python decimal representation `str(n)` as used in the f-strings building
`document_id`. -/
def natDigits (n : Nat) : List Char :=
  if _h : n < 10 then [Nat.digitChar n]
  else natDigits (n / 10) ++ [Nat.digitChar (n % 10)]
termination_by n
decreasing_by
  exact Nat.div_lt_self (by omega) (by omega)

/-- Decimal string representation of `n` (Python `str(n)`). -/
def natStr (n : Nat) : String := ⟨natDigits n⟩

/-- One entry of `combined_paragraphs` in `extract_paragraphs_from_docx`
(`ingest.py` lines 159-165), together with the list `combined_ids` of
original indices the chunk consumed (a local variable of the loop, recorded
here so the index coverage of each chunk can be stated). -/
structure Chunk where
  text : String
  paragraph_id : Nat
  source_file : String
  document_id : String
  author : String
  combined_ids : List Nat
deriving DecidableEq

/-- Closing one chunk (`ingest.py` lines 153-165): build the `document_id`
from the document stem and the first/last combined index, record the first
index as `paragraph_id`, and classify the author from the file name. -/
def mkChunk (stem fname : String) (text : String) (ids : List Nat) : Chunk :=
  let start_id := ids.headD 0
  { text := text
    paragraph_id := start_id
    source_file := fname
    document_id :=
      if ids.length = 1 then stem ++ "_para_" ++ natStr start_id
      else stem ++ "_para_" ++ natStr (ids.headD 0) ++ "-" ++ natStr (ids.getLastD 0)
    author := get_author_from_filename fname
    combined_ids := ids }

/-- The inner merge loop of `extract_paragraphs_from_docx` (`ingest.py`
lines 143-148): while the accumulated buffer is still short of `min_words`
and input remains, append the text of the next paragraph (space separated) and
its index.  The word-count guard re-reads the accumulated `current_text`,
so it is re-evaluated after every append. -/
def absorb (min_words : Int) (current_text : String) (combined_ids : List Nat) :
    List RawParagraph → String × List Nat × List RawParagraph
  | [] => (current_text, combined_ids, [])
  | p :: rest =>
    if (wordCount current_text : Int) < min_words then
      absorb min_words (current_text ++ " " ++ p.text) (combined_ids ++ [p.original_id]) rest
    else
      (current_text, combined_ids, p :: rest)

/-- Fuelled worker for the outer merge loop of `extract_paragraphs_from_docx`
(`ingest.py` lines 135-165).  One unit of fuel is spent per outer iteration;
since every iteration consumes at least one paragraph, fuel equal to the
paragraph count suffices. -/
def mergeChunksGo (min_words : Int) (stem fname : String) :
    Nat → List RawParagraph → List Chunk
  | _, [] => []
  | 0, _ :: _ => []
  | fuel + 1, p :: rest =>
    if (wordCount p.text : Int) < min_words ∧ rest ≠ [] then
      let r := absorb min_words p.text [p.original_id] rest
      mkChunk stem fname r.1 r.2.1 :: mergeChunksGo min_words stem fname fuel r.2.2
    else
      mkChunk stem fname p.text [p.original_id] :: mergeChunksGo min_words stem fname fuel rest

/-- The chunk merger: the `while i < len(raw_paragraphs)` loop of
`extract_paragraphs_from_docx`, which combines runs of short paragraphs
into chunks of at least `min_words` words. -/
def mergeChunks (min_words : Int) (stem fname : String) (paras : List RawParagraph) :
    List Chunk :=
  mergeChunksGo min_words stem fname paras.length paras

/-- The hardcoded minimum word count (`ingest.py` line 131). -/
def min_words : Int := 100

/-- The pure part of `extract_paragraphs_from_docx`: extract the non-empty
stripped paragraphs, then merge short ones into chunks of at least
`min_words` words. -/
def extract_paragraphs_from_docx (stem fname : String) (doc_paragraphs : List String) :
    List Chunk :=
  mergeChunks min_words stem fname (extract_paragraphs doc_paragraphs)

/-- Left fold of the space-separated appends performed by the inner merge
loop: the buffer after absorbing the paragraphs `ps` into `t`. -/
def joinWith (t : String) (ps : List RawParagraph) : String :=
  ps.foldl (fun acc p => acc ++ " " ++ p.text) t

/-- Text of a chunk built from the consecutive run `g` of paragraphs: the
text of the first paragraph with every later one appended space-separated. -/
def groupJoin : List RawParagraph → String
  | [] => ""
  | p :: rest => joinWith p.text rest

/-- The chunk the merge loop closes for a consumed run `g` of consecutive
paragraphs. -/
def chunkOfGroup (stem fname : String) (g : List RawParagraph) : Chunk :=
  mkChunk stem fname (groupJoin g) (g.map RawParagraph.original_id)

/-- Space-join a list of strings (the Python join with a space). -/
def spaceJoin : List String → String
  | [] => ""
  | [t] => t
  | t :: u :: rest => t ++ " " ++ spaceJoin (u :: rest)

/-- A string of `k` single-letter words separated by single spaces. -/
def mkWords (k : Nat) : String :=
  spaceJoin (List.replicate k ("w"))

/-- Python method endswith on strings, modelled on character lists. -/
def pyEndsWith (s suf : String) : Bool :=
  suf.data.isSuffixOf s.data

/-- Normalization as the specification words it for claim C7: lowercase and
remove only a trailing ".docx" suffix.  This definition follows the claim
wording, not the code, and is compared against the code key functions
`author_key` and `url_key`. -/
def spec_trailing_key (filename : String) : String :=
  let l := pyLower filename
  if pyEndsWith l (".docx") then ⟨l.data.take (l.data.length - 5)⟩ else l

/-- Folding nothing leaves the buffer unchanged. -/
theorem joinWith_nil (t : String) : joinWith t [] = t := rfl

theorem joinWith_cons (t : String) (p : RawParagraph) (xs : List RawParagraph) :
    joinWith t (p :: xs) = joinWith (t ++ " " ++ p.text) xs := rfl

theorem absorb_spec (m : Int) (t : String) (ids : List Nat) (l : List RawParagraph) :
    ∃ n, n ≤ l.length ∧
      absorb m t ids l =
        (joinWith t (l.take n), ids ++ (l.take n).map RawParagraph.original_id, l.drop n) ∧
      (∀ k, k < n → (wordCount (joinWith t (l.take k)) : Int) < m) ∧
      (n < l.length → m ≤ (wordCount (joinWith t (l.take n)) : Int)) := by
  induction l generalizing t ids with
  | nil =>
    refine ⟨0, le_rfl, by simp [absorb, joinWith_nil], ?_, ?_⟩
    · intro k hk
      exact absurd hk (Nat.not_lt_zero k)
    · intro h
      exact absurd h (lt_irrefl 0)
  | cons p rest ih =>
    by_cases h : (wordCount t : Int) < m
    · obtain ⟨n, hn, habs, hmin, hstop⟩ := ih (t ++ " " ++ p.text) (ids ++ [p.original_id])
      refine ⟨n + 1, by simpa using Nat.succ_le_succ hn, ?_, ?_, ?_⟩
      · have hstep : absorb m t ids (p :: rest)
            = absorb m (t ++ " " ++ p.text) (ids ++ [p.original_id]) rest := by
          simp [absorb, h]
        rw [hstep, habs]
        simp [List.take_succ_cons, joinWith_cons]
      · intro k hk
        cases k with
        | zero => simpa [joinWith_nil] using h
        | succ k' =>
          have := hmin k' (by omega)
          simpa [List.take_succ_cons, joinWith_cons] using this
      · intro hlt
        have := hstop (by simpa using Nat.lt_of_succ_lt_succ hlt)
        simpa [List.take_succ_cons, joinWith_cons] using this
    · refine ⟨0, Nat.zero_le _, by simp [absorb, h, joinWith_nil], ?_, ?_⟩
      · intro k hk
        exact absurd hk (Nat.not_lt_zero k)
      · intro _
        simpa [joinWith_nil] using not_lt.mp h

theorem groupJoin_cons (p : RawParagraph) (xs : List RawParagraph) :
    groupJoin (p :: xs) = joinWith p.text xs := rfl

theorem mergeChunksGo_groups (m : Int) (stem fname : String) :
    ∀ (fuel : Nat) (paras : List RawParagraph), paras.length ≤ fuel →
    ∃ groups : List (List RawParagraph),
      groups.flatten = paras ∧
      (∀ g ∈ groups, g ≠ []) ∧
      (∀ g ∈ groups.dropLast, m ≤ (wordCount (groupJoin g) : Int)) ∧
      mergeChunksGo m stem fname fuel paras = groups.map (chunkOfGroup stem fname) := by
  intro fuel
  induction fuel with
  | zero =>
    intro paras h
    have hnil : paras = [] := List.eq_nil_of_length_eq_zero (Nat.le_zero.mp h)
    subst hnil
    exact ⟨[], rfl, by simp, by simp, rfl⟩
  | succ fuel ih =>
    intro paras hlen
    cases paras with
    | nil => exact ⟨[], rfl, by simp, by simp, rfl⟩
    | cons p rest =>
      by_cases hc : (wordCount p.text : Int) < m ∧ rest ≠ []
      · obtain ⟨n, hn, habs, hmin, hstop⟩ := absorb_spec m p.text [p.original_id] rest
        obtain ⟨groups, hflat, hne, hshort, heq⟩ := ih (rest.drop n) (by
          simp only [List.length_cons] at hlen
          simp only [List.length_drop]
          omega)
        refine ⟨(p :: rest.take n) :: groups, ?_, ?_, ?_, ?_⟩
        · simp [hflat, List.take_append_drop]
        · intro g hg
          rcases List.mem_cons.mp hg with hg | hg
          · simp [hg]
          · exact hne g hg
        · intro g hg
          cases groups with
          | nil => simp at hg
          | cons g0 gs =>
            rw [List.dropLast_cons_of_ne_nil (by simp)] at hg
            rcases List.mem_cons.mp hg with hg | hg
            · subst hg
              have hg0 : g0 ≠ [] := hne g0 (by simp)
              have hlt : n < rest.length := by
                by_contra hge
                have : rest.drop n = [] := List.drop_eq_nil_of_le (by omega)
                rw [this] at hflat
                have : g0 :: gs = [] ∨ g0 = [] := by
                  cases hfe : g0 with
                  | nil => exact Or.inr rfl
                  | cons a as =>
                    exfalso
                    have : ((g0 :: gs).flatten).length = 0 := by rw [hflat]; simp
                    simp [hfe] at this
                rcases this with h' | h'
                · exact absurd h' (by simp)
                · exact hg0 h'
              have := hstop hlt
              simpa [groupJoin_cons] using this
            · exact hshort g hg
        · have hunfold : mergeChunksGo m stem fname (fuel + 1) (p :: rest)
              = mkChunk stem fname (absorb m p.text [p.original_id] rest).1
                  (absorb m p.text [p.original_id] rest).2.1
                :: mergeChunksGo m stem fname fuel (absorb m p.text [p.original_id] rest).2.2 := by
            simp [mergeChunksGo, hc]
          rw [hunfold, habs, heq]
          simp [chunkOfGroup, groupJoin_cons]
      · obtain ⟨groups, hflat, hne, hshort, heq⟩ := ih rest (by
          simp only [List.length_cons] at hlen
          omega)
        refine ⟨[p] :: groups, by simp [hflat], ?_, ?_, ?_⟩
        · intro g hg
          rcases List.mem_cons.mp hg with hg | hg
          · simp [hg]
          · exact hne g hg
        · intro g hg
          cases groups with
          | nil => simp at hg
          | cons g0 gs =>
            rw [List.dropLast_cons_of_ne_nil (by simp)] at hg
            rcases List.mem_cons.mp hg with hg | hg
            · subst hg
              have hg0 : g0 ≠ [] := hne g0 (by simp)
              have hrest : rest ≠ [] := by
                intro hr
                rw [hr] at hflat
                cases hfe : g0 with
                | nil => exact hg0 hfe
                | cons a as =>
                  have : ((g0 :: gs).flatten).length = 0 := by rw [hflat]; simp
                  simp [hfe] at this
              have hwc : ¬ (wordCount p.text : Int) < m := fun hw => hc ⟨hw, hrest⟩
              simpa [groupJoin_cons, joinWith_nil] using not_lt.mp hwc
            · exact hshort g hg
        · have hunfold : mergeChunksGo m stem fname (fuel + 1) (p :: rest)
              = mkChunk stem fname p.text [p.original_id]
                :: mergeChunksGo m stem fname fuel rest := by
            simp [mergeChunksGo, hc]
          rw [hunfold, heq]
          simp [chunkOfGroup, groupJoin_cons, joinWith_nil]

theorem mergeChunks_groups (m : Int) (stem fname : String) (paras : List RawParagraph) :
    ∃ groups : List (List RawParagraph),
      groups.flatten = paras ∧
      (∀ g ∈ groups, g ≠ []) ∧
      (∀ g ∈ groups.dropLast, m ≤ (wordCount (groupJoin g) : Int)) ∧
      mergeChunks m stem fname paras = groups.map (chunkOfGroup stem fname) :=
  mergeChunksGo_groups m stem fname paras.length paras le_rfl

theorem mkChunk_combined_ids (stem fname t : String) (ids : List Nat) :
    (mkChunk stem fname t ids).combined_ids = ids := rfl

theorem mkChunk_text (stem fname t : String) (ids : List Nat) :
    (mkChunk stem fname t ids).text = t := rfl

theorem chunkOfGroup_text (stem fname : String) (g : List RawParagraph) :
    (chunkOfGroup stem fname g).text = groupJoin g := rfl

theorem chunkOfGroup_combined_ids (stem fname : String) (g : List RawParagraph) :
    (chunkOfGroup stem fname g).combined_ids = g.map RawParagraph.original_id := rfl

/-- Claim C1: for every sequence of RawParagraphs, the combined index lists
of the chunks produced by the chunk merger, concatenated in output order,
equal the list of input original indices in document order, so they
partition the inputs with no index dropped, duplicated, or reordered. -/
theorem merge_partitions_original_indices (m : Int) (stem fname : String) (paras : List RawParagraph) :
    (mergeChunks m stem fname paras).flatMap Chunk.combined_ids
      = paras.map RawParagraph.original_id := by
  obtain ⟨groups, hflat, hne, hshort, heq⟩ := mergeChunks_groups m stem fname paras
  rw [heq, ← hflat]
  simp only [List.flatMap_def, List.map_map, List.map_flatten]
  congr 1

theorem dropLast_map_eq {A B : Type} (f : A → B) (l : List A) :
    (l.map f).dropLast = l.dropLast.map f := by
  simp [List.dropLast_eq_take, List.map_take]

/-- Claim C3: every chunk except possibly the last has at least min_words
words, and a single trailing paragraph is always emitted as its own chunk,
never dropped and never merged backward into a previous chunk. -/
theorem merge_min_words_invariant (m : Int) (stem fname : String) (paras : List RawParagraph) :
    (∀ c ∈ (mergeChunks m stem fname paras).dropLast, m ≤ (wordCount c.text : Int)) ∧
    (∀ p : RawParagraph,
       mergeChunks m stem fname [p] = [mkChunk stem fname p.text [p.original_id]]) := by
  constructor
  · obtain ⟨groups, hflat, hne, hshort, heq⟩ := mergeChunks_groups m stem fname paras
    intro c hc
    rw [heq, dropLast_map_eq] at hc
    obtain ⟨g, hg, rfl⟩ := List.mem_map.mp hc
    simpa [chunkOfGroup_text] using hshort g hg
  · intro p
    simp [mergeChunks, mergeChunksGo]

/-- Claim C9 amended: the code performs no validation of min_words,
which is hardcoded to 100; with any min_words at most 0 the merge loop
silently emits every paragraph as its own chunk instead of failing
fast. -/
theorem merge_nonpositive_min_words (m : Int) (hm : m ≤ 0) (stem fname : String) (paras : List RawParagraph) :
    mergeChunks m stem fname paras
      = paras.map (fun p => mkChunk stem fname p.text [p.original_id]) ∧
    min_words = 100 := by
  refine ⟨?_, rfl⟩
  have go : ∀ (fuel : Nat) (l : List RawParagraph), l.length ≤ fuel →
      mergeChunksGo m stem fname fuel l
        = l.map (fun p => mkChunk stem fname p.text [p.original_id]) := by
    intro fuel
    induction fuel with
    | zero =>
      intro l h
      have : l = [] := List.eq_nil_of_length_eq_zero (Nat.le_zero.mp h)
      subst this
      rfl
    | succ fuel ih =>
      intro l h
      cases l with
      | nil => rfl
      | cons p rest =>
        have hcond : ¬ ((wordCount p.text : Int) < m ∧ rest ≠ []) := by
          rintro ⟨h1, -⟩
          have h0 : (0 : Int) ≤ (wordCount p.text : Int) := Int.ofNat_nonneg _
          omega
        simp only [List.length_cons] at h
        simp [mergeChunksGo, hcond, ih rest (by omega)]
  exact go paras.length paras le_rfl

theorem spaceJoin_cons_cons (a : String) (l : List String) (h : l ≠ []) :
    spaceJoin (a :: l) = a ++ " " ++ spaceJoin l := by
  cases l with
  | nil => exact absurd rfl h
  | cons b l' => rfl

theorem joinWith_eq_spaceJoin (t : String) (xs : List RawParagraph) :
    joinWith t xs = spaceJoin (t :: xs.map RawParagraph.text) := by
  induction xs generalizing t with
  | nil => rfl
  | cons q xs ih =>
    rw [joinWith_cons, ih]
    cases xs with
    | nil => rfl
    | cons r xs' =>
      simp only [List.map_cons]
      rw [spaceJoin_cons_cons (t ++ " " ++ q.text)
            (r.text :: List.map RawParagraph.text xs') (by simp),
        spaceJoin_cons_cons t
            (q.text :: r.text :: List.map RawParagraph.text xs') (by simp),
        spaceJoin_cons_cons q.text
            (r.text :: List.map RawParagraph.text xs') (by simp)]
      simp [String.append_assoc]

theorem groupJoin_eq_spaceJoin (g : List RawParagraph) :
    groupJoin g = spaceJoin (g.map RawParagraph.text) := by
  cases g with
  | nil => rfl
  | cons p xs => exact joinWith_eq_spaceJoin p.text xs

theorem spaceJoin_single (t : String) : spaceJoin [t] = t := rfl

theorem spaceJoin_append (l1 l2 : List String) (h1 : l1 ≠ []) (h2 : l2 ≠ []) :
    spaceJoin (l1 ++ l2) = spaceJoin l1 ++ " " ++ spaceJoin l2 := by
  induction l1 with
  | nil => exact absurd rfl h1
  | cons a l1' ih =>
    cases l1' with
    | nil => simpa using spaceJoin_cons_cons a l2 h2
    | cons b l1'' =>
      rw [List.cons_append, spaceJoin_cons_cons _ _ (by simp),
        spaceJoin_cons_cons _ _ (by simp), ih (by simp) ]
      simp [String.append_assoc]

theorem flatten_ne_nil_of_ne {A : Type} (L : List (List A)) (h : ∀ l ∈ L, l ≠ [])
    (hL : L ≠ []) : L.flatten ≠ [] := by
  cases L with
  | nil => exact absurd rfl hL
  | cons l0 ls =>
    have : l0 ≠ [] := h l0 (by simp)
    simp only [List.flatten_cons, ne_eq, List.append_eq_nil]
    rintro ⟨h0, -⟩
    exact this h0

theorem spaceJoin_flatten (L : List (List String)) (h : ∀ l ∈ L, l ≠ []) :
    spaceJoin (L.map spaceJoin) = spaceJoin L.flatten := by
  induction L with
  | nil => rfl
  | cons l L' ih =>
    cases hL' : L' with
    | nil => simp [spaceJoin_single]
    | cons l0 ls =>
      rw [← hL']
      have hne' : ∀ x ∈ L', x ≠ [] := fun x hx => h x (by simp [hx])
      have hl : l ≠ [] := h l (by simp)
      have hfl : L'.flatten ≠ [] := flatten_ne_nil_of_ne L' hne' (by simp [hL'])
      rw [List.map_cons, spaceJoin_cons_cons _ _ (by simp [hL']),
        ih hne', List.flatten_cons, spaceJoin_append l L'.flatten hl hfl]

/-- Claim C10: space-joining the chunk texts in output order equals
space-joining the input paragraph texts in document order, and each chunk
text is exactly the space-join of the texts of its constituent
paragraphs. -/
theorem merge_preserves_text (m : Int) (stem fname : String) (paras : List RawParagraph) :
    spaceJoin ((mergeChunks m stem fname paras).map Chunk.text)
      = spaceJoin (paras.map RawParagraph.text) ∧
    ∃ groups : List (List RawParagraph),
      groups.flatten = paras ∧
      mergeChunks m stem fname paras = groups.map (chunkOfGroup stem fname) ∧
      ∀ g ∈ groups, (chunkOfGroup stem fname g).text
        = spaceJoin (g.map RawParagraph.text) := by
  obtain ⟨groups, hflat, hne, -, heq⟩ := mergeChunks_groups m stem fname paras
  constructor
  · rw [heq, ← hflat]
    have h1 : (groups.map (chunkOfGroup stem fname)).map Chunk.text
        = (groups.map (List.map RawParagraph.text)).map spaceJoin := by
      simp only [List.map_map]
      exact List.map_congr_left fun g _ => by
        simp [Function.comp, chunkOfGroup_text, groupJoin_eq_spaceJoin]
    rw [h1, spaceJoin_flatten _ (by
      intro l hl
      obtain ⟨g, hg, rfl⟩ := List.mem_map.mp hl
      intro hnil
      exact hne g hg (List.map_eq_nil_iff.mp hnil)), List.map_flatten]
  · exact ⟨groups, hflat, heq, fun g hg => by
      simp [chunkOfGroup_text, groupJoin_eq_spaceJoin]⟩

theorem extractRaw_spec (i : Nat) (texts : List String) :
    (extractRaw i texts).length ≤ texts.length ∧
    ((extractRaw i texts).map RawParagraph.original_id).Pairwise (· < ·) ∧
    (∀ p ∈ extractRaw i texts, i ≤ p.original_id ∧
      ∃ t, texts[p.original_id - i]? = some t ∧ pyStrip t = p.text ∧ p.text ≠ "") := by
  induction texts generalizing i with
  | nil => simp [extractRaw]
  | cons t ts ih =>
    obtain ⟨ihlen, ihpw, ihmem⟩ := ih (i + 1)
    by_cases h : pyStrip t = ""
    · refine ⟨?_, ?_, ?_⟩ <;> simp only [extractRaw, h, if_pos]
      · exact ihlen.trans (Nat.le_succ _)
      · exact ihpw
      · intro p hp
        obtain ⟨hle, t', ht', hstrip, hne⟩ := ihmem p hp
        refine ⟨by omega, t', ?_, hstrip, hne⟩
        have : p.original_id - i = (p.original_id - (i + 1)) + 1 := by omega
        rw [this, List.getElem?_cons_succ]
        exact ht'
    · refine ⟨?_, ?_, ?_⟩ <;> simp only [extractRaw, if_neg h]
      · simpa using ihlen
      · rw [List.map_cons, List.pairwise_cons]
        refine ⟨?_, ihpw⟩
        intro q hq
        obtain ⟨p, hp, rfl⟩ := List.mem_map.mp hq
        have := (ihmem p hp).1
        show i < p.original_id
        omega
      · intro p hp
        rcases List.mem_cons.mp hp with hp | hp
        · subst hp
          refine ⟨le_rfl, t, ?_, rfl, h⟩
          simp
        · obtain ⟨hle, t', ht', hstrip, hne⟩ := ihmem p hp
          refine ⟨by omega, t', ?_, hstrip, hne⟩
          have : p.original_id - i = (p.original_id - (i + 1)) + 1 := by omega
          rw [this, List.getElem?_cons_succ]
          exact ht'

theorem string_ext (s t : String) (h : s.data = t.data) : s = t := by
  cases s
  cases t
  exact congrArg String.mk h

theorem digitChar_isDigit : ∀ d, d < 10 → (Nat.digitChar d).isDigit = true := by decide

theorem digitChar_inj :
    ∀ a, a < 10 → ∀ b, b < 10 → Nat.digitChar a = Nat.digitChar b → a = b := by decide

theorem natDigits_ne_nil (n : Nat) : natDigits n ≠ [] := by
  rw [natDigits]
  split
  · simp
  · simp

theorem natDigits_isDigit (n : Nat) : ∀ c ∈ natDigits n, c.isDigit = true := by
  induction n using Nat.strong_induction_on with
  | _ n ih =>
    rw [natDigits]
    split
    · next h =>
      intro c hc
      rw [List.mem_singleton] at hc
      subst hc
      exact digitChar_isDigit n h
    · next h =>
      intro c hc
      rcases List.mem_append.mp hc with hc | hc
      · exact ih (n / 10) (Nat.div_lt_self (by omega) (by omega)) c hc
      · rw [List.mem_singleton] at hc
        subst hc
        exact digitChar_isDigit (n % 10) (Nat.mod_lt n (by omega))

theorem dash_not_mem_natDigits (n : Nat) : ('-') ∉ natDigits n := by
  intro hmem
  have := natDigits_isDigit n ('-') hmem
  simp at this

theorem natDigits_eq_of_lt {n : Nat} (h : n < 10) : natDigits n = [Nat.digitChar n] := by
  rw [natDigits, dif_pos h]

theorem natDigits_eq_of_ge {n : Nat} (h : ¬ n < 10) :
    natDigits n = natDigits (n / 10) ++ [Nat.digitChar (n % 10)] := by
  rw [natDigits, dif_neg h]

theorem natDigits_inj (a : Nat) : ∀ b, natDigits a = natDigits b → a = b := by
  induction a using Nat.strong_induction_on with
  | _ a ih =>
    intro b h
    by_cases ha : a < 10 <;> by_cases hb : b < 10
    · rw [natDigits_eq_of_lt ha, natDigits_eq_of_lt hb] at h
      exact digitChar_inj a ha b hb (by simpa using h)
    · rw [natDigits_eq_of_lt ha, natDigits_eq_of_ge hb] at h
      have hlen := congrArg List.length h
      simp at hlen
      exact absurd hlen (natDigits_ne_nil _)
    · rw [natDigits_eq_of_ge ha, natDigits_eq_of_lt hb] at h
      have hlen := congrArg List.length h
      simp at hlen
      exact absurd hlen (natDigits_ne_nil _)
    · rw [natDigits_eq_of_ge ha, natDigits_eq_of_ge hb] at h
      have hlen : ([Nat.digitChar (a % 10)] : List Char).length
          = ([Nat.digitChar (b % 10)] : List Char).length := rfl
      obtain ⟨h1, h2⟩ := List.append_inj' h hlen
      have hm : a % 10 = b % 10 :=
        digitChar_inj _ (Nat.mod_lt a (by omega)) _ (Nat.mod_lt b (by omega))
          (by simpa using h2)
      have hd : a / 10 = b / 10 :=
        ih (a / 10) (Nat.div_lt_self (by omega) (by omega)) _ h1
      omega

theorem append_dash_inj (l1 : List Char) : ∀ (l2 r1 r2 : List Char),
    ('-') ∉ l1 → ('-') ∉ l2 →
    l1 ++ '-' :: r1 = l2 ++ '-' :: r2 → l1 = l2 ∧ r1 = r2 := by
  induction l1 with
  | nil =>
    intro l2 r1 r2 h1 h2 h
    cases l2 with
    | nil => simpa using h
    | cons d l2' =>
      exfalso
      simp only [List.nil_append, List.cons_append, List.cons.injEq] at h
      exact h2 (h.1 ▸ List.mem_cons_self d l2')
  | cons c l1' ih =>
    intro l2 r1 r2 h1 h2 h
    cases l2 with
    | nil =>
      exfalso
      simp only [List.cons_append, List.nil_append, List.cons.injEq] at h
      exact h1 (h.1 ▸ List.mem_cons_self c l1')
    | cons d l2' =>
      simp only [List.cons_append, List.cons.injEq] at h
      obtain ⟨rfl, h⟩ := h
      obtain ⟨rfl, rfl⟩ := ih l2' r1 r2 (fun hm => h1 (List.mem_cons_of_mem _ hm))
        (fun hm => h2 (List.mem_cons_of_mem _ hm)) h
      exact ⟨rfl, rfl⟩

theorem natStr_data (n : Nat) : (natStr n).data = natDigits n := rfl

theorem mkChunk_document_id_ne (stem f1 f2 t1 t2 : String) (ids1 ids2 : List Nat)
    (hne : ids1.headD 0 ≠ ids2.headD 0) :
    (mkChunk stem f1 t1 ids1).document_id ≠ (mkChunk stem f2 t2 ids2).document_id := by
  intro heq
  have hdata := congrArg String.data heq
  by_cases hl1 : ids1.length = 1 <;> by_cases hl2 : ids2.length = 1 <;>
    simp only [mkChunk, hl1, hl2, if_pos, if_neg, if_true, if_false,
      String.data_append, natStr_data, List.append_assoc] at hdata
  · exact hne (natDigits_inj _ _ (List.append_cancel_left
      (List.append_cancel_left hdata)))
  · have hsuf := List.append_cancel_left (List.append_cancel_left hdata)
    have hdash : ('-') ∈ natDigits (ids1.headD 0) := by
      rw [hsuf]
      simp [List.mem_append]
    exact dash_not_mem_natDigits _ hdash
  · have hsuf := List.append_cancel_left (List.append_cancel_left hdata)
    have hdash : ('-') ∈ natDigits (ids2.headD 0) := by
      rw [← hsuf]
      simp [List.mem_append]
    exact dash_not_mem_natDigits _ hdash
  · have hsuf := List.append_cancel_left (List.append_cancel_left hdata)
    obtain ⟨h1, -⟩ := append_dash_inj _ _ _ _ (dash_not_mem_natDigits _)
      (dash_not_mem_natDigits _) (by exact hsuf)
    exact hne (natDigits_inj _ _ h1)

theorem headD_lt_of_lifted (g1 g2 : List Nat) (h1 : g1 ≠ []) (h2 : g2 ≠ [])
    (h : ∀ x ∈ g1, ∀ y ∈ g2, x < y) : g1.headD 0 < g2.headD 0 := by
  cases g1 with
  | nil => exact absurd rfl h1
  | cons a g1' =>
    cases g2 with
    | nil => exact absurd rfl h2
    | cons b g2' =>
      exact h a (List.mem_cons_self a g1') b (List.mem_cons_self b g2')

/-- Claim C4: each chunk identifier is the stem with para and the start
index appended when the chunk consumed one paragraph, and with the
start-end index range appended otherwise, where start and end are the
original indices of the first and last constituent paragraphs; for input
with strictly increasing indices the identifiers are pairwise distinct
within one document. -/
theorem merge_document_id_spec (m : Int) (stem fname : String) (paras : List RawParagraph)
    (hsorted : (paras.map RawParagraph.original_id).Pairwise (· < ·)) :
    (∀ c ∈ mergeChunks m stem fname paras,
      c.combined_ids ≠ [] ∧
      (c.combined_ids.length = 1 →
        c.document_id = stem ++ "_para_" ++ natStr (c.combined_ids.headD 0)) ∧
      (c.combined_ids.length ≠ 1 →
        c.document_id = stem ++ "_para_" ++ natStr (c.combined_ids.headD 0)
          ++ "-" ++ natStr (c.combined_ids.getLastD 0))) ∧
    ((mergeChunks m stem fname paras).map Chunk.document_id).Pairwise (· ≠ ·) := by
  obtain ⟨groups, hflat, hne, -, heq⟩ := mergeChunks_groups m stem fname paras
  constructor
  · intro c hc
    rw [heq] at hc
    obtain ⟨g, hg, rfl⟩ := List.mem_map.mp hc
    refine ⟨?_, ?_, ?_⟩
    · simp only [chunkOfGroup_combined_ids, ne_eq, List.map_eq_nil_iff]
      exact hne g hg
    · intro hl
      simp [chunkOfGroup, mkChunk, chunkOfGroup_combined_ids] at hl ⊢
      simp [hl]
    · intro hl
      simp [chunkOfGroup, mkChunk, chunkOfGroup_combined_ids] at hl ⊢
      simp [hl]
  · rw [heq]
    have hpw : ((groups.map (List.map RawParagraph.original_id)).flatten).Pairwise
        (· < ·) := by
      rw [← List.map_flatten, hflat]
      exact hsorted
    have hpw2 := (List.pairwise_flatten.mp hpw).2
    rw [List.pairwise_map] at hpw2
    rw [List.pairwise_map, List.pairwise_map]
    refine hpw2.imp_of_mem ?_
    intro g1 g2 hg1 hg2 hlift
    refine mkChunk_document_id_ne stem fname fname (groupJoin g1) (groupJoin g2)
      (g1.map RawParagraph.original_id) (g2.map RawParagraph.original_id) ?_
    have hlt := headD_lt_of_lifted (g1.map RawParagraph.original_id)
      (g2.map RawParagraph.original_id)
      (by simpa using hne g1 hg1) (by simpa using hne g2 hg2) hlift
    omega


/-- Claim C2: the inner merge loop re-evaluates its word-count guard
against the full accumulated buffer after every append, stopping as soon
as the running buffer reaches min_words or the input is exhausted; in
particular, for paragraphs of 5, 5 and 200 words with min_words 50 the
output is a single chunk covering indices 0 through 2. -/
theorem absorb_guard_reevaluated :
    (∀ (m : Int) (t : String) (ids : List Nat) (l : List RawParagraph),
      ∃ n, n ≤ l.length ∧
        absorb m t ids l =
          (joinWith t (l.take n), ids ++ (l.take n).map RawParagraph.original_id, l.drop n) ∧
        (∀ k, k < n → (wordCount (joinWith t (l.take k)) : Int) < m) ∧
        (n < l.length → m ≤ (wordCount (joinWith t (l.take n)) : Int))) ∧
    (mergeChunks 50 ("doc") ("doc.docx")
      [⟨mkWords 5, 0⟩, ⟨mkWords 5, 1⟩, ⟨mkWords 200, 2⟩]).map Chunk.combined_ids
      = [[0, 1, 2]] :=
  ⟨absorb_spec, by decide⟩

/-- Witness instantiating the claim C2 theorem at concrete inputs. -/
theorem absorb_guard_reevaluated_witness :
    ∃ n, n ≤ ([] : List RawParagraph).length ∧
      absorb 50 ("a") [0] [] =
        (joinWith ("a") (List.take n []), [0] ++ (List.take n []).map RawParagraph.original_id,
          List.drop n ([] : List RawParagraph)) ∧
      (∀ k, k < n → (wordCount (joinWith ("a") (List.take k [])) : Int) < 50) ∧
      (n < ([] : List RawParagraph).length →
        50 ≤ (wordCount (joinWith ("a") (List.take n [])) : Int)) :=
  absorb_guard_reevaluated.1 50 ("a") [0] []

/-- Claim C5: the paragraph extractor strips each input string, discards
whitespace-only entries, and emits the rest with original_id equal to the
position in the pre-filter sequence, so the output is at most as long as
the input and the emitted indices are strictly increasing. -/
theorem extract_paragraphs_spec (texts : List String) :
    (extract_paragraphs texts).length ≤ texts.length ∧
    ((extract_paragraphs texts).map RawParagraph.original_id).Pairwise (· < ·) ∧
    (∀ p ∈ extract_paragraphs texts,
      ∃ t, texts[p.original_id]? = some t ∧ pyStrip t = p.text ∧ p.text ≠ "") := by
  obtain ⟨h1, h2, h3⟩ := extractRaw_spec 0 texts
  refine ⟨h1, h2, ?_⟩
  intro p hp
  obtain ⟨-, t, ht, hstrip, hne⟩ := h3 p hp
  exact ⟨t, by simpa using ht, hstrip, hne⟩

/-- Witness instantiating the claim C5 theorem at a concrete input. -/
theorem extract_paragraphs_spec_witness :
    ∃ t, ([" hi "] : List String)[(0 : Nat)]? = some t ∧
      pyStrip t = "hi" ∧ ("hi" : String) ≠ "" :=
  (extract_paragraphs_spec [" hi "]).2.2 ⟨"hi", 0⟩ (by decide)

/-- Claim C6: the author classifier is total and deterministic: a
normalized name found in a hardcoded category list returns the label of
that category, a name found in no list that starts with 19 or 20 and
contains an underscore returns the institutional label, and every other
name returns the literal Other. -/
theorem get_author_spec :
    get_author_from_filename ("Kitab-i-Iqan.docx") = "Bah\xe1\x27u\x27ll\xe1h" ∧
    get_author_from_filename ("1999_01_01_message.docx") = "Universal House of Justice" ∧
    get_author_from_filename ("random-file.docx") = "Other" ∧
    (∀ f, author_key f ∈ bahaullah_works →
      get_author_from_filename f = "Bah\xe1\x27u\x27ll\xe1h") ∧
    (∀ f, author_key f ∉ bahaullah_works → author_key f ∈ abdul_baha_works →
      get_author_from_filename f = "\x27Abdu\x27l-Bah\xe1") ∧
    (∀ f, author_key f ∉ bahaullah_works → author_key f ∉ abdul_baha_works →
      author_key f ∈ bab_works → get_author_from_filename f = "The B\xe1b") ∧
    (∀ f, author_key f ∉ bahaullah_works → author_key f ∉ abdul_baha_works →
      author_key f ∉ bab_works → author_key f ∈ shoghi_works →
      get_author_from_filename f = "Shoghi Effendi") ∧
    (∀ f, author_key f ∉ bahaullah_works → author_key f ∉ abdul_baha_works →
      author_key f ∉ bab_works → author_key f ∉ shoghi_works →
      author_key f ∈ uhj_works →
      get_author_from_filename f = "Universal House of Justice") ∧
    (∀ f, author_key f ∉ bahaullah_works → author_key f ∉ abdul_baha_works →
      author_key f ∉ bab_works → author_key f ∉ shoghi_works →
      author_key f ∉ uhj_works → author_key f ∈ compilation_works →
      get_author_from_filename f = "Compilations") ∧
    (∀ f, author_key f ∉ bahaullah_works → author_key f ∉ abdul_baha_works →
      author_key f ∉ bab_works → author_key f ∉ shoghi_works →
      author_key f ∉ uhj_works → author_key f ∉ compilation_works →
      ((pyStartsWith (author_key f) ("19") || pyStartsWith (author_key f) ("20"))
        && pyContains (author_key f) '_') = true →
      get_author_from_filename f = "Universal House of Justice") ∧
    (∀ f, author_key f ∉ bahaullah_works → author_key f ∉ abdul_baha_works →
      author_key f ∉ bab_works → author_key f ∉ shoghi_works →
      author_key f ∉ uhj_works → author_key f ∉ compilation_works →
      ((pyStartsWith (author_key f) ("19") || pyStartsWith (author_key f) ("20"))
        && pyContains (author_key f) '_') = false →
      get_author_from_filename f = "Other") := by
  refine ⟨by decide, by decide, by decide, ?_, ?_, ?_, ?_, ?_, ?_, ?_, ?_⟩
  · intro f h1
    simp [get_author_from_filename, h1]
  · intro f h1 h2
    simp [get_author_from_filename, h1, h2]
  · intro f h1 h2 h3
    simp [get_author_from_filename, h1, h2, h3]
  · intro f h1 h2 h3 h4
    simp [get_author_from_filename, h1, h2, h3, h4]
  · intro f h1 h2 h3 h4 h5
    simp [get_author_from_filename, h1, h2, h3, h4, h5]
  · intro f h1 h2 h3 h4 h5 h6
    simp [get_author_from_filename, h1, h2, h3, h4, h5, h6]
  · intro f h1 h2 h3 h4 h5 h6 h7
    simp [get_author_from_filename, h1, h2, h3, h4, h5, h6, h7]
  · intro f h1 h2 h3 h4 h5 h6 h7
    simp [get_author_from_filename, h1, h2, h3, h4, h5, h6, h7]

/-- Witness instantiating the claim C6 theorem at a concrete input. -/
theorem get_author_spec_witness :
    get_author_from_filename ("hidden-words.docx") = "Bah\xe1\x27u\x27ll\xe1h" :=
  get_author_spec.2.2.2.1 ("hidden-words.docx") (by decide)

/-- Claim C8: the URL resolver returns exactly the mapped literal URL
for every filename whose key is in the fixed table and the generic
library root for every other filename. -/
theorem get_bahai_library_url_spec :
    get_bahai_library_url ("hidden-words.docx")
      = "https://www.bahai.org/library/authoritative-texts/bahaullah/hidden-words/" ∧
    get_bahai_library_url ("unknown.docx") = "https://www.bahai.org/library/" ∧
    (∀ f u, url_mappings.lookup (url_key f) = some u → get_bahai_library_url f = u) ∧
    (∀ f, url_mappings.lookup (url_key f) = none →
      get_bahai_library_url f = "https://www.bahai.org/library/") := by
  refine ⟨by decide, by decide, ?_, ?_⟩
  · intro f u h
    simp [get_bahai_library_url, h]
  · intro f h
    simp [get_bahai_library_url, h]

/-- Witness instantiating the claim C8 theorem at a concrete input. -/
theorem get_bahai_library_url_spec_witness :
    get_bahai_library_url ("paris-talks.docx")
      = "https://www.bahai.org/library/authoritative-texts/abdul-baha/paris-talks/" :=
  get_bahai_library_url_spec.2.2.1 ("paris-talks.docx") _ (by decide)

/-- Claim C7 counterexample: the code removes every occurrence of the
extension, not only a trailing suffix: the interior occurrence in
a.docxb.docx is removed, two filenames differing only in a non-trailing
part collide on the same key, and the resolver key differs from the
classifier key on an upper-case extension because the two normalizations
apply lowercasing on different sides of the removal. -/
theorem author_key_not_trailing_only :
    author_key ("a.docxb.docx") = "ab" ∧
    author_key ("a.docxb.docx") = author_key ("ab.docx") ∧
    spec_trailing_key ("a.docxb.docx") = "a.docxb" ∧
    author_key ("a.docxb.docx") ≠ spec_trailing_key ("a.docxb.docx") ∧
    url_key ("A.DOCX") ≠ author_key ("A.DOCX") :=
  ⟨by decide, by decide, by decide, by decide, by decide⟩

/-- Claim C7 amended: the classifier key lowercases and then removes
every occurrence of the extension while the resolver key removes every
occurrence and then lowercases; both functions depend on the filename only
through their key, interior occurrences are removed too, and the two keys
can differ on filenames with a non-lowercase extension. -/
theorem author_key_removes_all_occurrences :
    author_key ("a.docxb.docx") = "ab" ∧
    url_key ("a.docxb.docx") = "ab" ∧
    (∀ f g, author_key f = author_key g →
      get_author_from_filename f = get_author_from_filename g) ∧
    (∀ f g, url_key f = url_key g →
      get_bahai_library_url f = get_bahai_library_url g) ∧
    author_key ("a.docxb.docx") = author_key ("ab.docx") ∧
    url_key ("A.DOCX") ≠ author_key ("A.DOCX") := by
  refine ⟨by decide, by decide, ?_, ?_, by decide, by decide⟩
  · intro f g h
    simp [get_author_from_filename, h]
  · intro f g h
    simp [get_bahai_library_url, h]

/-- Witness instantiating the amended claim C7 theorem at a concrete input. -/
theorem author_key_removes_all_occurrences_witness :
    get_author_from_filename ("gleanings.docx") = get_author_from_filename ("gleanings.docx") :=
  author_key_removes_all_occurrences.2.2.1 ("gleanings.docx") ("gleanings.docx") rfl

/-- Claim C9 counterexample: running the merge loop with min_words 0 is
not rejected and fails no check: it silently produces one chunk per
paragraph. -/
theorem merge_accepts_nonpositive_min_words :
    (mergeChunks 0 ("d") ("d.docx")
      [⟨"hello world", 0⟩, ⟨"again", 1⟩]).map Chunk.text = ["hello world", "again"] ∧
    (mergeChunks 0 ("d") ("d.docx")
      [⟨"hello world", 0⟩, ⟨"again", 1⟩]).map Chunk.combined_ids = [[0], [1]] :=
  ⟨by decide, by decide⟩

/-- Witness instantiating the amended claim C9 theorem at a concrete input. -/
theorem merge_nonpositive_min_words_witness :
    mergeChunks 0 ("d") ("d.docx") [⟨"hi", 0⟩]
      = ([⟨"hi", 0⟩] : List RawParagraph).map
          (fun p => mkChunk ("d") ("d.docx") p.text [p.original_id]) ∧
    min_words = 100 :=
  merge_nonpositive_min_words 0 (by decide) ("d") ("d.docx") [⟨"hi", 0⟩]

/-- Witness instantiating the claim C4 theorem at a concrete input. -/
theorem merge_document_id_spec_witness :
    ((mergeChunks 100 ("doc") ("doc.docx")
      [⟨"alpha", 0⟩, ⟨"beta", 3⟩]).map Chunk.document_id).Pairwise (· ≠ ·) :=
  (merge_document_id_spec 100 ("doc") ("doc.docx") [⟨"alpha", 0⟩, ⟨"beta", 3⟩] (by decide)).2

/-- Witness instantiating the claim C3 theorem at a concrete input. -/
theorem merge_min_words_invariant_witness :
    mergeChunks 2 ("d") ("f") [⟨"hi", 5⟩] = [mkChunk ("d") ("f") ("hi") [5]] :=
  (merge_min_words_invariant 2 ("d") ("f") []).2 ⟨"hi", 5⟩

/-- Witness instantiating the claim C10 theorem at a concrete input. -/
theorem merge_preserves_text_witness :
    spaceJoin ((mergeChunks 3 ("d") ("f") [⟨"a b", 0⟩]).map Chunk.text)
      = spaceJoin ([⟨"a b", 0⟩].map RawParagraph.text) :=
  (merge_preserves_text 3 ("d") ("f") [⟨"a b", 0⟩]).1
